import Mathlib

/-!
Verification of the Farey mediant-bisection approximator (`src/main.rs`).

Embedding conventions:
* Rust `u64` values are modelled as `Nat`; where the source performs `u64`
  addition (which wraps modulo `2^64` in release builds), the model reduces
  the sum explicitly modulo `W = 2^64`.
* Rust `f64` arithmetic on fraction values is modelled by exact rational
  arithmetic over `ℚ`: `value()` is the exact quotient, `f64::EPSILON` is the
  exact rational `2^(-52)`, and comparisons are exact.  Claims whose truth
  hinges on IEEE-754 rounding rather than on the exact values are not settled
  against this model.
* The `as u64` cast applied to the (exact) results of `floor`/`ceil`
  saturates: negative values go to `0` and values above `2^64 - 1` go to
  `2^64 - 1`, matching Rust float-to-int cast semantics.
* The unbounded `loop` is modelled with explicit fuel: the search function
  returns `none` when the fuel runs out, `some r` when the loop exits with
  result `r` within the given fuel.
-/

/-- The modulus of unsigned 64-bit arithmetic. -/
def W : Nat := 2 ^ 64

/-- Machine epsilon of `f64`, exactly `2^(-52)`. -/
def eps : ℚ := 1 / 2 ^ 52

/-- `struct Fraction { numerator: u64, denominator: u64 }`. -/
structure Fraction where
  numerator : Nat
  denominator : Nat
deriving DecidableEq, Repr

/-- `struct DivByZeroError;` — the only error type in the program. -/
inductive DivByZeroError where
  | mk : DivByZeroError
deriving DecidableEq, Repr

namespace Fraction

/-- `Fraction::new`: rejects a zero denominator, otherwise stores the pair. -/
def new (numerator denominator : Nat) : Except DivByZeroError Fraction :=
  if denominator = 0 then
    Except.error DivByZeroError.mk
  else
    Except.ok ⟨numerator, denominator⟩

/-- `Fraction::value`: the decimal value `numerator / denominator`.
The source computes this quotient in `f64`; the model uses the exact
rational quotient. -/
def value (f : Fraction) : ℚ :=
  (f.numerator : ℚ) / (f.denominator : ℚ)

/-- `Fraction::mediant`: `Self::new(a.n + b.n, a.d + b.d)` with `u64`
addition, which wraps modulo `2^64`. -/
def mediant (a b : Fraction) : Except DivByZeroError Fraction :=
  new ((a.numerator + b.numerator) % W) ((a.denominator + b.denominator) % W)

end Fraction

/-- One diagnostic trace record: the fields interpolated by the
`println!("$ frac({},{}) <- {} -> frac({},{}) $", ...)` in the loop body. -/
structure TraceRec where
  lNum : Nat
  lDen : Nat
  mVal : ℚ
  rNum : Nat
  rDen : Nat
deriving DecidableEq, Repr

/-- Rendering of one trace record, the literal shape of the `println!`
format string (the mediant value printed via its decimal rendering). -/
def render (x : TraceRec) : String :=
  "$ frac(" ++ toString x.lNum ++ "," ++ toString x.lDen ++ ") <- "
    ++ toString x.mVal ++ " -> frac(" ++ toString x.rNum ++ ","
    ++ toString x.rDen ++ ") $"

/-- Rust `as u64` cast of an exact integer-valued float: saturating. -/
def u64cast (x : Int) : Nat :=
  if x < 0 then 0 else min x.toNat (W - 1)

/-- `real_number.floor() as u64`. -/
def floorCast (t : ℚ) : Nat := u64cast ⌊t⌋

/-- `real_number.ceil() as u64`. -/
def ceilCast (t : ℚ) : Nat := u64cast ⌈t⌉

/-- The `loop` body of `farey`, with fuel.  Returns the emitted trace
records together with `none` (fuel exhausted while still searching) or
`some r` (loop exited with result `r`). -/
def fareyGo (t : ℚ) (l r : Fraction) :
    Nat → List TraceRec × Option (Except DivByZeroError Fraction)
  | 0 => ([], none)
  | fuel + 1 =>
    match l.mediant r with
    | Except.error e => ([], some (Except.error e))
    | Except.ok m =>
      let record : TraceRec :=
        ⟨l.numerator, l.denominator, m.value, r.numerator, r.denominator⟩
      if |t - m.value| < eps then
        ([record], some (Except.ok m))
      else if m.value > t then
        let rest := fareyGo t l m fuel
        (record :: rest.1, rest.2)
      else
        let rest := fareyGo t m r fuel
        (record :: rest.1, rest.2)

/-- `fn farey`: initialize the bounds from `floor`/`ceil` and run the loop. -/
def farey (t : ℚ) (fuel : Nat) :
    List TraceRec × Option (Except DivByZeroError Fraction) :=
  match Fraction.new (floorCast t) 1 with
  | Except.error e => ([], some (Except.error e))
  | Except.ok l =>
    match Fraction.new (ceilCast t) 1 with
    | Except.error e => ([], some (Except.error e))
    | Except.ok r => fareyGo t l r fuel

/-- The sequence of loop iterations actually executed: for each pass of the
loop body, the entry bounds together with the mediant computed there.  The
bounds evolve by the bisection step of the source. -/
def iterSeq (t : ℚ) (l r : Fraction) :
    Nat → List (Fraction × Fraction × Fraction)
  | 0 => []
  | fuel + 1 =>
    match l.mediant r with
    | Except.error _ => []
    | Except.ok m =>
      (l, m, r) ::
        (if |t - m.value| < eps then []
         else if m.value > t then iterSeq t l m fuel
         else iterSeq t m r fuel)

/-- Ceiling expressed through floor, for `norm_num` evaluation. -/
lemma ceil_via_floor (a : ℚ) : ⌈a⌉ = -⌊-a⌋ := by
  rw [Int.floor_neg, neg_neg]

/-- Unfolding of a successful construction. -/
lemma new_ok {n d : Nat} {f : Fraction} :
    Fraction.new n d = Except.ok f ↔ d ≠ 0 ∧ f = ⟨n, d⟩ := by
  unfold Fraction.new
  split
  · next h => simp [h]
  · next h =>
    constructor
    · intro he
      injection he with he
      exact ⟨h, he.symm⟩
    · rintro ⟨-, rfl⟩
      rfl

/-- Unfolding of a failed construction. -/
lemma new_error {n d : Nat} {e : DivByZeroError} :
    Fraction.new n d = Except.error e ↔ d = 0 := by
  unfold Fraction.new
  split
  · next h => simp [h]
  · next h => simp [h]

example : Fraction.new 3 0 = Except.error DivByZeroError.mk := rfl
example : Fraction.new 3 4 = Except.ok ⟨3, 4⟩ := rfl
example : Fraction.mediant ⟨1, 2⟩ ⟨1, 3⟩ = Except.ok ⟨2, 5⟩ := rfl
example : floorCast (1 / 2 : ℚ) = 0 := by
  norm_num [floorCast, u64cast]
example : ceilCast (1 / 2 : ℚ) = 1 := by
  norm_num [ceilCast, u64cast, W, ceil_via_floor]
example : Fraction.value ⟨1, 2⟩ = 1 / 2 := by
  norm_num [Fraction.value]
example : (farey (1 / 2 : ℚ) 1).2 = some (Except.ok ⟨1, 2⟩) := by
  norm_num [farey, fareyGo, floorCast, ceilCast, u64cast, W, ceil_via_floor,
    Fraction.new, Fraction.mediant, Fraction.value, eps]

/-- C5: `Fraction::new` fails with the division-by-zero error exactly when
the denominator is `0`, and for every non-zero denominator succeeds,
returning a Fraction holding the given numerator and denominator. -/
theorem c5_construction_gate (n d : Nat) :
    (Fraction.new n d = Except.error DivByZeroError.mk ↔ d = 0) ∧
    (d ≠ 0 → Fraction.new n d = Except.ok ⟨n, d⟩) := by
  refine ⟨new_error, fun h => ?_⟩
  exact new_ok.mpr ⟨h, rfl⟩

/-- Witness for C5 at numerator 7, denominator 3. -/
theorem c5_construction_gate_witness :
    Fraction.new 7 3 = Except.ok ⟨7, 3⟩ :=
  (c5_construction_gate 7 3).2 (by decide)

/-- C6: every Fraction produced by the program — by explicit construction
or by the mediant operation — has a non-zero denominator. -/
theorem c6_denominator_nonzero (n d : Nat) (f a b m : Fraction) :
    (Fraction.new n d = Except.ok f → f.denominator ≠ 0) ∧
    (a.mediant b = Except.ok m → m.denominator ≠ 0) := by
  constructor
  · intro h
    obtain ⟨hd, rfl⟩ := new_ok.mp h
    exact hd
  · intro h
    obtain ⟨hd, rfl⟩ := new_ok.mp h
    exact hd

/-- Witness for C6 at `new 1 2` and `mediant (1/2) (1/3)`. -/
theorem c6_denominator_nonzero_witness :
    (2 : Nat) ≠ 0 ∧ (5 : Nat) ≠ 0 :=
  ⟨(c6_denominator_nonzero 1 2 ⟨1, 2⟩ ⟨1, 2⟩ ⟨1, 3⟩ ⟨2, 5⟩).1 rfl,
   (c6_denominator_nonzero 1 2 ⟨1, 2⟩ ⟨1, 2⟩ ⟨1, 3⟩ ⟨2, 5⟩).2 rfl⟩

/-- C3: the code does NOT detect overflow.  When the numerator sum reaches
`2^64` the addition wraps and `mediant` silently returns the corrupted
Fraction `0/2`; when the denominator sum wraps to `0`, `mediant` fails with
the division-by-zero error.  No distinct arithmetic-overflow error exists
in the program. -/
theorem c3_mediant_wraps_on_overflow :
    Fraction.mediant ⟨W - 1, 1⟩ ⟨1, 1⟩ = Except.ok ⟨0, 2⟩ ∧
    Fraction.mediant ⟨1, W - 1⟩ ⟨1, 1⟩ = Except.error DivByZeroError.mk := by
  constructor <;> rfl

/-- C7 counterexample: two Fractions with positive denominators on which
`mediant` does fail (the denominator sum wraps to `0` modulo `2^64` and the
construction rejects it). -/
theorem c7_counterexample :
    0 < (Fraction.mk 1 (W - 1)).denominator ∧
    0 < (Fraction.mk 1 1).denominator ∧
    Fraction.mediant ⟨1, W - 1⟩ ⟨1, 1⟩ = Except.error DivByZeroError.mk := by
  refine ⟨?_, ?_, rfl⟩ <;> decide

/-- C7 amended: when both denominators are positive AND their sum stays
below `2^64`, the mediant operation never fails. -/
theorem c7_mediant_ok (a b : Fraction)
    (ha : 0 < a.denominator) (hb : 0 < b.denominator)
    (hd : a.denominator + b.denominator < W) :
    a.mediant b =
      Except.ok ⟨(a.numerator + b.numerator) % W, a.denominator + b.denominator⟩ := by
  unfold Fraction.mediant
  rw [Nat.mod_eq_of_lt hd]
  exact new_ok.mpr ⟨by omega, rfl⟩

/-- Witness for C7 at `1/2` and `1/3`. -/
theorem c7_mediant_ok_witness :
    Fraction.mediant ⟨1, 2⟩ ⟨1, 3⟩ = Except.ok ⟨(1 + 1) % W, 2 + 3⟩ :=
  c7_mediant_ok ⟨1, 2⟩ ⟨1, 3⟩ (by decide) (by decide) (by decide)

/-- Exact-arithmetic core of the bracketing property: the mediant of two
distinct fractions with positive denominators lies strictly between them. -/
lemma mediant_strict_between {na da nb db : ℚ} (hda : 0 < da) (hdb : 0 < db)
    (h : na / da < nb / db) :
    na / da < (na + nb) / (da + db) ∧ (na + nb) / (da + db) < nb / db := by
  rw [div_lt_div_iff₀ hda hdb] at h
  constructor
  · rw [div_lt_div_iff₀ hda (by linarith)]
    nlinarith
  · rw [div_lt_div_iff₀ (by linarith) hdb]
    nlinarith

/-- C4 counterexample: the Fractions `(2^64-1)/1` and `1/1` have positive
denominators and distinct values, yet the mediant's numerator wraps to `0`
and its value `0` lies outside the interval in either order. -/
theorem c4_counterexample :
    0 < (Fraction.mk (W - 1) 1).denominator ∧
    0 < (Fraction.mk 1 1).denominator ∧
    Fraction.value ⟨W - 1, 1⟩ ≠ Fraction.value ⟨1, 1⟩ ∧
    Fraction.mediant ⟨W - 1, 1⟩ ⟨1, 1⟩ = Except.ok ⟨0, 2⟩ ∧
    ¬((Fraction.value ⟨W - 1, 1⟩ < Fraction.value ⟨0, 2⟩ ∧
        Fraction.value ⟨0, 2⟩ < Fraction.value ⟨1, 1⟩) ∨
      (Fraction.value ⟨1, 1⟩ < Fraction.value ⟨0, 2⟩ ∧
        Fraction.value ⟨0, 2⟩ < Fraction.value ⟨W - 1, 1⟩)) := by
  refine ⟨by decide, by decide, ?_, rfl, ?_⟩ <;>
    norm_num [Fraction.value, W]

/-- C4 amended: when the numerator and denominator sums stay below `2^64`
(so no wrap occurs), the mediant of two Fractions with positive
denominators and distinct values lies strictly between them, and the
mediant of a Fraction with itself has the same value. -/
theorem c4_mediant_bracketing :
    (∀ a b : Fraction, 0 < a.denominator → 0 < b.denominator →
      a.numerator + b.numerator < W → a.denominator + b.denominator < W →
      a.value ≠ b.value →
      ∃ m, a.mediant b = Except.ok m ∧
        ((a.value < m.value ∧ m.value < b.value) ∨
         (b.value < m.value ∧ m.value < a.value))) ∧
    (∀ a : Fraction, 0 < a.denominator →
      a.numerator + a.numerator < W → a.denominator + a.denominator < W →
      ∃ m, a.mediant a = Except.ok m ∧ m.value = a.value) := by
  have hval : ∀ (x y : Nat), Fraction.value ⟨x, y⟩ = (x : ℚ) / (y : ℚ) :=
    fun x y => rfl
  constructor
  · intro a b ha hb hn hd hne
    refine ⟨⟨(a.numerator + b.numerator) % W, a.denominator + b.denominator⟩,
      c7_mediant_ok a b ha hb hd, ?_⟩
    rw [Nat.mod_eq_of_lt hn]
    have hda : (0 : ℚ) < (a.denominator : ℚ) := by exact_mod_cast ha
    have hdb : (0 : ℚ) < (b.denominator : ℚ) := by exact_mod_cast hb
    rcases lt_or_gt_of_ne hne with h | h
    · left
      have := mediant_strict_between hda hdb h
      unfold Fraction.value at h ⊢
      push_cast
      unfold Fraction.value at this
      exact this
    · right
      have := mediant_strict_between hdb hda h
      unfold Fraction.value at h ⊢
      push_cast
      unfold Fraction.value at this
      constructor
      · rw [show (a.numerator : ℚ) + (b.numerator : ℚ)
            = (b.numerator : ℚ) + (a.numerator : ℚ) by ring,
          show (a.denominator : ℚ) + (b.denominator : ℚ)
            = (b.denominator : ℚ) + (a.denominator : ℚ) by ring]
        exact this.1
      · rw [show (a.numerator : ℚ) + (b.numerator : ℚ)
            = (b.numerator : ℚ) + (a.numerator : ℚ) by ring,
          show (a.denominator : ℚ) + (b.denominator : ℚ)
            = (b.denominator : ℚ) + (a.denominator : ℚ) by ring]
        exact this.2
  · intro a ha hn hd
    refine ⟨⟨(a.numerator + a.numerator) % W, a.denominator + a.denominator⟩,
      c7_mediant_ok a a ha ha hd, ?_⟩
    rw [Nat.mod_eq_of_lt hn]
    have hda : ((a.denominator : ℚ)) ≠ 0 := by
      exact_mod_cast Nat.pos_iff_ne_zero.mp ha
    unfold Fraction.value
    push_cast
    field_simp
    ring

/-- Witness for C4 at `1/2`, `1/3` (bracketing) and `1/2` (self-mediant). -/
theorem c4_mediant_bracketing_witness :
    (∃ m, Fraction.mediant ⟨1, 2⟩ ⟨1, 3⟩ = Except.ok m ∧
      ((Fraction.value ⟨1, 2⟩ < m.value ∧ m.value < Fraction.value ⟨1, 3⟩) ∨
       (Fraction.value ⟨1, 3⟩ < m.value ∧ m.value < Fraction.value ⟨1, 2⟩))) ∧
    (∃ m, Fraction.mediant ⟨1, 2⟩ ⟨1, 2⟩ = Except.ok m ∧
      m.value = Fraction.value ⟨1, 2⟩) :=
  ⟨c4_mediant_bracketing.1 ⟨1, 2⟩ ⟨1, 3⟩ (by decide) (by decide) (by decide)
      (by decide) (by norm_num [Fraction.value]),
   c4_mediant_bracketing.2 ⟨1, 2⟩ (by decide) (by decide) (by decide)⟩

/-- A whole-number construction with denominator 1 always succeeds. -/
lemma new_den_one (k : Nat) : Fraction.new k 1 = Except.ok ⟨k, 1⟩ := rfl

/-- C2 counterexample: `farey 4` converges at the very first mediant, but
that mediant is the (unreduced) Fraction `8/2`, not `4/1`. -/
theorem c2_counterexample :
    (farey (4 : ℚ) 1).2 = some (Except.ok ⟨8, 2⟩) ∧
    Fraction.mk 8 2 ≠ Fraction.mk 4 1 := by
  constructor
  · norm_num [farey, fareyGo, floorCast, ceilCast, u64cast, W, ceil_via_floor,
      show (4 : Int).toNat = 4 from rfl,
      Fraction.new, Fraction.mediant, Fraction.value, eps]
  · decide

/-- C2 amended: for a whole-number target `n` (small enough that the
numerator sum `2n` does not wrap), the two initial bounds coincide
(`floor == ceil`), and the search returns at the very first mediant —
which is the Fraction `2n/2`, whose value equals the target. -/
theorem c2_whole_number (n fuel : Nat) (h : n < 2 ^ 63) :
    floorCast (n : ℚ) = ceilCast (n : ℚ) ∧
    (farey (n : ℚ) (fuel + 1)).2 = some (Except.ok ⟨2 * n, 2⟩) ∧
    Fraction.value ⟨2 * n, 2⟩ = (n : ℚ) := by
  have hWle : n ≤ W - 1 := by
    have h2 : (2 : Nat) ^ 63 ≤ 2 ^ 64 - 1 := by norm_num
    unfold W
    omega
  have hcast : u64cast (n : Int) = n := by
    unfold u64cast
    rw [if_neg (by simp), Int.toNat_natCast]
    exact min_eq_left hWle
  have hfloor : floorCast (n : ℚ) = n := by
    unfold floorCast
    rw [Int.floor_natCast]
    exact hcast
  have hceil : ceilCast (n : ℚ) = n := by
    unfold ceilCast
    rw [Int.ceil_natCast]
    exact hcast
  have hv : Fraction.value ⟨2 * n, 2⟩ = (n : ℚ) := by
    unfold Fraction.value
    push_cast
    ring
  have hm : Fraction.mediant ⟨n, 1⟩ ⟨n, 1⟩ = Except.ok ⟨2 * n, 2⟩ := by
    unfold Fraction.mediant
    have hnn : (n + n) % W = 2 * n := by
      rw [Nat.mod_eq_of_lt (by unfold W at hWle ⊢; omega)]
      ring
    have hdd : (1 + 1) % W = 2 := rfl
    rw [hnn, hdd]
    exact new_ok.mpr ⟨by norm_num, rfl⟩
  refine ⟨hfloor.trans hceil.symm, ?_, hv⟩
  unfold farey
  rw [hfloor, hceil, new_den_one]
  simp only [fareyGo, hm, hv, sub_self, abs_zero]
  rw [if_pos (by norm_num [eps])]

/-- Witness for C2's amended claim at `n = 4`. -/
theorem c2_whole_number_witness :
    floorCast ((4 : Nat) : ℚ) = ceilCast ((4 : Nat) : ℚ) ∧
    (farey ((4 : Nat) : ℚ) (0 + 1)).2 = some (Except.ok ⟨2 * 4, 2⟩) ∧
    Fraction.value ⟨2 * 4, 2⟩ = ((4 : Nat) : ℚ) :=
  c2_whole_number 4 0 (by norm_num)

/-- The trace emitted by the loop is, iteration for iteration, the record
built from that iteration's entry bounds and mediant. -/
lemma fareyGo_trace (t : ℚ) (fuel : Nat) : ∀ l r : Fraction,
    (fareyGo t l r fuel).1 = (iterSeq t l r fuel).map (fun x =>
      TraceRec.mk x.1.numerator x.1.denominator x.2.1.value
        x.2.2.numerator x.2.2.denominator) := by
  induction fuel with
  | zero => intro l r; rfl
  | succ f ih =>
    intro l r
    simp only [fareyGo, iterSeq]
    cases hm : Fraction.mediant l r with
    | error e => simp
    | ok m =>
      by_cases hc : |t - m.value| < eps
      · simp [hc]
      · by_cases hgt : m.value > t
        · simp [hc, hgt, ih l m]
        · simp [hc, hgt, ih m r]

/-- C9: the loop emits exactly one trace record per executed iteration, in
iteration order; the record holds the left bound's numerator/denominator,
the mediant's decimal value and the right bound's numerator/denominator,
and renders in the literal shape
`$ frac(L_num,L_den) <- M_value -> frac(R_num,R_den) $`. -/
theorem c9_trace_per_iteration (t : ℚ) (l r : Fraction) (fuel : Nat) :
    (fareyGo t l r fuel).1 = (iterSeq t l r fuel).map (fun x =>
      TraceRec.mk x.1.numerator x.1.denominator x.2.1.value
        x.2.2.numerator x.2.2.denominator) ∧
    (fareyGo t l r fuel).1.map render = (iterSeq t l r fuel).map (fun x =>
      "$ frac(" ++ toString x.1.numerator ++ "," ++ toString x.1.denominator
        ++ ") <- " ++ toString x.2.1.value ++ " -> frac("
        ++ toString x.2.2.numerator ++ "," ++ toString x.2.2.denominator
        ++ ") $") := by
  refine ⟨fareyGo_trace t fuel l r, ?_⟩
  rw [fareyGo_trace t fuel l r, List.map_map]
  rfl

/-- The bisection step preserves the bracketing invariant at every
executed iteration. -/
lemma iterSeq_inv (t : ℚ) (fuel : Nat) : ∀ l r : Fraction,
    l.value ≤ t → t ≤ r.value →
    ∀ x ∈ iterSeq t l r fuel, x.1.value ≤ t ∧ t ≤ x.2.2.value := by
  induction fuel with
  | zero =>
    intro l r _ _ x hx
    simp [iterSeq] at hx
  | succ f ih =>
    intro l r hl hr x hx
    simp only [iterSeq] at hx
    cases hm : Fraction.mediant l r with
    | error e =>
      rw [hm] at hx
      simp at hx
    | ok m =>
      rw [hm] at hx
      simp only [List.mem_cons] at hx
      rcases hx with rfl | hx
      · exact ⟨hl, hr⟩
      · by_cases hc : |t - m.value| < eps
        · rw [if_pos hc] at hx
          simp at hx
        · rw [if_neg hc] at hx
          by_cases hgt : m.value > t
          · rw [if_pos hgt] at hx
            exact ih l m hl (le_of_lt hgt) x hx
          · rw [if_neg hgt] at hx
            exact ih m r (le_of_not_lt hgt) hr x hx

/-- The left initial bound `floor(t)/1` does not exceed a non-negative
target. -/
lemma floorCast_le {t : ℚ} (h0 : 0 ≤ t) : ((floorCast t : Nat) : ℚ) ≤ t := by
  unfold floorCast u64cast
  have hf : (0 : Int) ≤ ⌊t⌋ := Int.floor_nonneg.mpr h0
  rw [if_neg (not_lt.mpr hf)]
  have hmin : ((min ⌊t⌋.toNat (W - 1) : Nat) : ℚ) ≤ ((⌊t⌋.toNat : Nat) : ℚ) :=
    Nat.cast_le.mpr (min_le_left _ _)
  refine le_trans hmin ?_
  have h2 : ((⌊t⌋.toNat : Nat) : ℚ) = ((⌊t⌋ : Int) : ℚ) := by
    rw [← Int.cast_natCast, Int.toNat_of_nonneg hf]
  rw [h2]
  exact Int.floor_le t

/-- A target no larger than `2^64 - 1` does not exceed its right initial
bound `ceil(t)/1` (the saturating cast does not clip it). -/
lemma le_ceilCast {t : ℚ} (h0 : 0 ≤ t) (h1 : t ≤ ((W - 1 : Nat) : ℚ)) :
    t ≤ ((ceilCast t : Nat) : ℚ) := by
  unfold ceilCast u64cast
  have hc0 : (0 : Int) ≤ ⌈t⌉ := Int.ceil_nonneg h0
  rw [if_neg (not_lt.mpr hc0)]
  have hle : ⌈t⌉ ≤ ((W - 1 : Nat) : Int) := Int.ceil_le.mpr (by exact_mod_cast h1)
  have hmin : min ⌈t⌉.toNat (W - 1) = ⌈t⌉.toNat :=
    min_eq_left (Int.toNat_le.mpr hle)
  rw [hmin]
  have h2 : ((⌈t⌉.toNat : Nat) : ℚ) = ((⌈t⌉ : Int) : ℚ) := by
    rw [← Int.cast_natCast, Int.toNat_of_nonneg hc0]
  rw [h2]
  exact Int.le_ceil t

/-- C8: for a valid target (non-negative, at most `2^64 - 1`), at every
executed iteration of the search loop the entry bounds bracket the target:
`left.value ≤ t ≤ right.value`, from the initial bounds `floor(t)/1` and
`ceil(t)/1` onward, preserved by the bisection step. -/
theorem c8_bounds_invariant (t : ℚ) (fuel : Nat)
    (h0 : 0 ≤ t) (h1 : t ≤ ((W - 1 : Nat) : ℚ)) :
    ∀ x ∈ iterSeq t ⟨floorCast t, 1⟩ ⟨ceilCast t, 1⟩ fuel,
      x.1.value ≤ t ∧ t ≤ x.2.2.value := by
  have hl : Fraction.value ⟨floorCast t, 1⟩ ≤ t := by
    show ((floorCast t : Nat) : ℚ) / ((1 : Nat) : ℚ) ≤ t
    rw [Nat.cast_one, div_one]
    exact floorCast_le h0
  have hr : t ≤ Fraction.value ⟨ceilCast t, 1⟩ := by
    show t ≤ ((ceilCast t : Nat) : ℚ) / ((1 : Nat) : ℚ)
    rw [Nat.cast_one, div_one]
    exact le_ceilCast h0 h1
  exact iterSeq_inv t fuel _ _ hl hr

/-- Witness for C8 at target `1/2`, one iteration. -/
theorem c8_bounds_invariant_witness :
    Fraction.value ⟨0, 1⟩ ≤ (1 / 2 : ℚ) ∧
    (1 / 2 : ℚ) ≤ Fraction.value ⟨1, 1⟩ :=
  c8_bounds_invariant (1 / 2) 1 (by norm_num) (by norm_num [W])
    (⟨0, 1⟩, ⟨1, 2⟩, ⟨1, 1⟩)
    (by norm_num [iterSeq, floorCast, ceilCast, u64cast, W, ceil_via_floor,
      Fraction.mediant, Fraction.new, Fraction.value, eps])

/-- A saturating cast of a non-positive integer yields `0`. -/
lemma u64cast_nonpos {x : Int} (h : x ≤ 0) : u64cast x = 0 := by
  unfold u64cast
  rcases lt_or_eq_of_le h with h' | h'
  · rw [if_pos h']
  · rw [h']
    rfl

/-- A fraction with numerator `0` has value `0`. -/
lemma value_zero_num (d : Nat) : Fraction.value ⟨0, d⟩ = 0 := by
  unfold Fraction.value
  rw [Nat.cast_zero, zero_div]

/-- When both bounds have numerator `0`, the loop can never exit with a
success: every mediant's value is `0`, which is at least `eps` away from a
target `t ≤ -eps`, and `0 > t` keeps both numerators at `0`. -/
lemma fareyGo_zero_num_no_success {t : ℚ} (ht : t ≤ -eps) (fuel : Nat) :
    ∀ l r : Fraction, l.numerator = 0 → r.numerator = 0 →
    ∀ m : Fraction, (fareyGo t l r fuel).2 ≠ some (Except.ok m) := by
  have heps : (0 : ℚ) < eps := by norm_num [eps]
  have htneg : t < 0 := lt_of_le_of_lt ht (by linarith)
  induction fuel with
  | zero =>
    intro l r _ _ m
    simp [fareyGo]
  | succ f ih =>
    intro l r hl hr m
    simp only [fareyGo]
    cases hm : Fraction.mediant l r with
    | error e => simp
    | ok md =>
      have hmd : md.numerator = 0 ∧ md.value = 0 := by
        obtain ⟨-, rfl⟩ := new_ok.mp (by
          unfold Fraction.mediant at hm
          rw [hl, hr] at hm
          exact hm)
        refine ⟨rfl, value_zero_num _⟩
      have hc : ¬(|t - md.value| < eps) := by
        rw [hmd.2, sub_zero, abs_of_neg htneg]
        linarith
      have hgt : md.value > t := by
        rw [hmd.2]
        exact htneg
      simp only [hc, hgt, if_true, if_false, ite_true, ite_false]
      exact ih l md hl hmd.1 m

/-- C10: for a negative target `t ≤ -eps`, both initial bounds are `0/1`
(the float-to-u64 cast saturates negatives to `0`), every candidate
mediant has numerator `0` and decimal value `0`, and the search never
returns a success result. -/
theorem c10_negative_target (t : ℚ) (fuel : Nat) (ht : t ≤ -eps) :
    Fraction.new (floorCast t) 1 = Except.ok ⟨0, 1⟩ ∧
    Fraction.new (ceilCast t) 1 = Except.ok ⟨0, 1⟩ ∧
    (∀ x ∈ iterSeq t ⟨0, 1⟩ ⟨0, 1⟩ fuel,
      x.2.1.numerator = 0 ∧ x.2.1.value = 0) ∧
    (∀ m : Fraction, (farey t fuel).2 ≠ some (Except.ok m)) := by
  have heps : (0 : ℚ) < eps := by norm_num [eps]
  have htneg : t < 0 := lt_of_le_of_lt ht (by linarith)
  have hfl : floorCast t = 0 := by
    unfold floorCast
    apply u64cast_nonpos
    have h1 : ((⌊t⌋ : Int) : ℚ) < 0 := lt_of_le_of_lt (Int.floor_le t) htneg
    exact_mod_cast le_of_lt h1
  have hcl : ceilCast t = 0 := by
    unfold ceilCast
    apply u64cast_nonpos
    apply Int.ceil_le.mpr
    exact_mod_cast le_of_lt htneg
  have hmediants : ∀ fl : Nat, ∀ l r : Fraction,
      l.numerator = 0 → r.numerator = 0 →
      ∀ x ∈ iterSeq t l r fl, x.2.1.numerator = 0 ∧ x.2.1.value = 0 := by
    intro fl
    induction fl with
    | zero =>
      intro l r _ _ x hx
      simp [iterSeq] at hx
    | succ f ih =>
      intro l r hl hr x hx
      simp only [iterSeq] at hx
      cases hm : Fraction.mediant l r with
      | error e =>
        rw [hm] at hx
        simp at hx
      | ok md =>
        rw [hm] at hx
        have hmd : md.numerator = 0 ∧ md.value = 0 := by
          obtain ⟨-, rfl⟩ := new_ok.mp (by
            unfold Fraction.mediant at hm
            rw [hl, hr] at hm
            exact hm)
          refine ⟨rfl, value_zero_num _⟩
        simp only [List.mem_cons] at hx
        rcases hx with rfl | hx
        · exact hmd
        · have hc : ¬(|t - md.value| < eps) := by
            rw [hmd.2, sub_zero, abs_of_neg htneg]
            linarith
          rw [if_neg hc, if_pos (by rw [hmd.2]; exact htneg)] at hx
          exact ih l md hl hmd.1 x hx
  refine ⟨by rw [hfl]; rfl, by rw [hcl]; rfl,
    hmediants fuel ⟨0, 1⟩ ⟨0, 1⟩ rfl rfl, ?_⟩
  intro m
  unfold farey
  rw [hfl, hcl, new_den_one]
  exact fareyGo_zero_num_no_success ht fuel ⟨0, 1⟩ ⟨0, 1⟩ rfl rfl m

/-- Witness for C10 at target `-1`, two units of fuel. -/
theorem c10_negative_target_witness :
    (farey (-1 : ℚ) 2).2 ≠ some (Except.ok ⟨0, 2⟩) :=
  (c10_negative_target (-1) 2 (by norm_num [eps])).2.2.2 ⟨0, 2⟩
